import Mathlib

/-!
# Verification of the real-time chat server's connection/room session core

This development shallowly embeds the socket.io chat server (`server.js`):
the in-memory room registry (`rooms : Map roomId -> {name, messages, users}`),
the per-socket transport room set (`socket.rooms`, the socket's own id room
elided, exactly as the handlers skip it), and the event handlers
`join_room`, `send_message` and `disconnect`, together with the HTTP room
creation route.  JS `Set` values are modelled as insertion-ordered
duplicate-free lists; JS `Map` values keyed by strings become Lean functions
into `Option`; object identity of the per-connection `socket.user` value is
modelled by the connection id itself (each connection owns one fresh user
object for its whole lifetime).

Outbound `emit` calls become explicit event values carrying their receiving
connection, so a broadcast is the list of per-receiver events it fans out to.
`socket.to(room).emit` targets every transport member of `room` except the
acting socket; `io.to(room).emit` targets every transport member including
the acting socket.

One transport fact is load-bearing: socket.io removes a socket from all of
its rooms *before* it emits the `disconnect` event (the rooms are only
visible in the earlier `disconnecting` event).  The `disconnect` handler's
loop over `Array.from(socket.rooms)` therefore iterates an empty collection
— its cleanup body is dead code, and a disconnected user remains in every
room's `users` set as a ghost member.  The embedding reproduces this.
-/

namespace Chat

/-- A connection (socket) id.  In the server each live socket has a unique
id; the per-connection `socket.user` object is in one-to-one correspondence
with it, so room membership sets store connection ids. -/
abbrev ConnId := Nat

/-- A room id (the string key of the global `rooms` map). -/
abbrev RoomId := String

/-- Whitespace as recognised by JavaScript's `String.prototype.trim`
(space, tab, line feed, carriage return, vertical tab, form feed; the less
common unicode space code points are omitted, none of the claims depends on
them). -/
def isJsWhitespace (ch : Char) : Bool :=
  ch == ' ' || ch == '\t' || ch == '\n' || ch == '\r' ||
    ch == Char.ofNat 11 || ch == Char.ofNat 12

/-- `trim` on a character list: drop whitespace from the front and from the
back. -/
def jsTrimList (cs : List Char) : List Char :=
  ((cs.dropWhile isJsWhitespace).reverse.dropWhile isJsWhitespace).reverse

/-- JavaScript `String.prototype.trim`. -/
def jsTrim (s : String) : String :=
  ⟨jsTrimList s.data⟩

/-- A stamped chat message (`messageObj` in the server).  The server stamps
`id` from `Date.now()` plus randomness and `timestamp` from `new Date()`;
the embedding draws both from a per-process counter, which preserves
freshness and monotonicity of stamps. -/
structure Message where
  id : Nat
  user : ConnId
  message : String
  timestamp : Nat
deriving DecidableEq, Repr

/-- A room record, the value stored in the global `rooms` map:
`{ name, messages: [], users: Set }`. -/
structure Room where
  name : String
  messages : List Message
  users : List ConnId
deriving DecidableEq, Repr

/-- An outbound event delivered to one connection (`dst`).  A broadcast is
the list of such events it fans out to. -/
inductive Event where
  | userLeft (dst : ConnId) (room : RoomId) (user : ConnId) (users : List ConnId)
  | userJoined (dst : ConnId) (room : RoomId) (user : ConnId) (users : List ConnId)
  | roomUsers (dst : ConnId) (room : RoomId) (users : List ConnId)
  | messageHistory (dst : ConnId) (room : RoomId) (messages : List Message)
  | message (dst : ConnId) (payload : Message)
  | errorEvt (dst : ConnId) (detail : String)
deriving DecidableEq, Repr

/-- Detail string of the `error` emitted on a join/send against an unknown
room id. -/
def roomNotFoundMsg : String := "Room not found"

/-- Detail string of the `error` emitted on a send while not a member. -/
def notInRoomMsg : String := "You are not in this room"

/-- The server's mutable state: the connected sockets (`socketUsers` keys),
the global `rooms` map, each socket's transport room set (`socket.rooms`
minus the socket's own id room), and the stamp counter.  `usedIds` records
every socket id that has ever connected: socket.io assigns each connection
a globally fresh id (and the `jwt.verify` callback builds a fresh
`socket.user` object per connection), so an id is never reused — the model
makes that freshness assumption explicit rather than silently identifying
a dead connection's leftover `users` entry with a later connection. -/
structure ServerState where
  conns : List ConnId
  usedIds : List ConnId
  rooms : RoomId → Option Room
  sockRooms : ConnId → List RoomId
  nextId : Nat

/-- The state at process start: no connections, no rooms. -/
def init : ServerState :=
  { conns := [], usedIds := [], rooms := fun _ => none,
    sockRooms := fun _ => [], nextId := 0 }

/-- Overwrite the entry of room `r` in the `rooms` map. -/
def setRoom (s : ServerState) (r : RoomId) (rm : Room) : ServerState :=
  { s with rooms := fun r' => if r' = r then some rm else s.rooms r' }

/-- Overwrite connection `c`'s transport room set. -/
def setSockRooms (s : ServerState) (c : ConnId) (l : List RoomId) : ServerState :=
  { s with sockRooms := fun c' => if c' = c then l else s.sockRooms c' }

/-- JS `Set.add`: append if absent (insertion order preserved). -/
def setAdd {α : Type} [DecidableEq α] (l : List α) (x : α) : List α :=
  if x ∈ l then l else l ++ [x]

/-- The transport members of room `r`: the connected sockets whose
`socket.rooms` contains `r` (the socket.io adapter's view of the room). -/
def roomMembersT (s : ServerState) (r : RoomId) : List ConnId :=
  s.conns.filter (fun c => decide (r ∈ s.sockRooms c))

/-- `socket.to(r).emit`: deliver to every transport member of `r` except the
acting socket. -/
def socketTo (s : ServerState) (sender : ConnId) (r : RoomId)
    (mk : ConnId → Event) : List Event :=
  ((roomMembersT s r).filter (fun d => decide (d ≠ sender))).map mk

/-- `io.to(r).emit`: deliver to every transport member of `r`, the acting
socket included. -/
def ioTo (s : ServerState) (r : RoomId) (mk : ConnId → Event) : List Event :=
  (roomMembersT s r).map mk

/-- The `connection` callback's registration part: record the socket in
`userSockets` / `socketUsers`.  Socket ids are globally fresh, so the
`connection` callback never fires for an id seen before; the guard on
`c ∈ usedIds` renders that freshness (a connect intent reusing an id is
dropped, since no such event exists in the real system). -/
def connectC (s : ServerState) (c : ConnId) : ServerState :=
  if c ∈ s.usedIds then s
  else
    { s with conns := s.conns ++ [c], usedIds := s.usedIds ++ [c],
             sockRooms := fun c' => if c' = c then [] else s.sockRooms c' }

/-- `POST /api/rooms`: reject an empty/whitespace-only name, otherwise
insert a fresh room with empty history and empty membership.  The server
generates an id guaranteed fresh (`Date.now` plus randomness); the embedding
takes the id as a parameter and makes a colliding insert a no-op, which a
fresh id never triggers. -/
def createRoom (s : ServerState) (r : RoomId) (name : String) :
    ServerState × Option String :=
  if (jsTrim name).length = 0 then (s, some ("Room name is required"))
  else
    match s.rooms r with
    | some _ => (s, none)
    | none =>
      ({ s with rooms := fun r' => if r' = r then
            some { name := jsTrim name, messages := [], users := [] }
          else s.rooms r' }, none)

/-- One iteration of the `join_room` handler's leave-previous loop:
`socket.leave(room)`, then delete the user from the previous room's `users`
set and broadcast `user_left` (with the post-deletion member array) to the
remaining transport members of that room. -/
def leaveOne (c : ConnId) (acc : ServerState × List Event) (r : RoomId) :
    ServerState × List Event :=
  let s1 := setSockRooms acc.1 c ((acc.1.sockRooms c).erase r)
  match s1.rooms r with
  | none => (s1, acc.2)
  | some prevRoom =>
    let prevRoom' := { prevRoom with users := prevRoom.users.erase c }
    let s2 := setRoom s1 r prevRoom'
    (s2, acc.2 ++ socketTo s2 c r (fun d => Event.userLeft d r c prevRoom'.users))

/-- The `join_room` handler's leave-previous loop over `Array.from(socket.rooms)`
(the socket's own id room already elided from `sockRooms`). -/
def leaveAll (s : ServerState) (c : ConnId) : ServerState × List Event :=
  (s.sockRooms c).foldl (leaveOne c) (s, [])

/-- The `join_room` handler.  Unknown room: `error` to the socket.  Known
room: leave every previous transport room (broadcasting `user_left` to each),
then `socket.join`, add the user to the room's set, broadcast `user_joined`
to the other members, and send the joining socket the `room_users` snapshot
(taken after the join, hence containing the joiner) followed by the
`message_history` replay. -/
def joinRoom (s : ServerState) (c : ConnId) (roomId : RoomId) :
    ServerState × List Event :=
  match s.rooms roomId with
  | none => (s, [Event.errorEvt c roomNotFoundMsg])
  | some _ =>
    let p := leaveAll s c
    let s1 := p.1
    let s2 := setSockRooms s1 c (setAdd (s1.sockRooms c) roomId)
    match s2.rooms roomId with
    | none => (s2, p.2)
    | some room =>
      let room' := { room with users := setAdd room.users c }
      let s3 := setRoom s2 roomId room'
      (s3, p.2
        ++ socketTo s3 c roomId (fun d => Event.userJoined d roomId c room'.users)
        ++ [Event.roomUsers c roomId room'.users,
            Event.messageHistory c roomId room'.messages])

/-- The last `n` elements of a list, in order (JS `slice(-n)`). -/
def lastN {α : Type} (n : Nat) (l : List α) : List α :=
  l.drop (l.length - n)

/-- Lines 227–233 of the server: push the stamped message, then
`if (messages.length > 100) messages = messages.slice(-100)`. -/
def pushBounded (h : List Message) (m : Message) : List Message :=
  let h0 := h ++ [m]
  if h0.length > 100 then lastN 100 h0 else h0

/-- The value of the `send_message` payload's `message` field as received
from the wire: a string, or anything else (missing field, `null`, a number,
…) on which calling `.trim()` throws a `TypeError`. -/
inductive JsVal where
  | str (s : String)
  | nonString
deriving DecidableEq, Repr

/-- Outcome of the `send_message` handler: normal completion with the new
state and emitted events, or an uncaught exception thrown inside the
handler. -/
inductive SendResult where
  | ok (s : ServerState) (evts : List Event)
  | throws

/-- The `messageObj` the server builds for an accepted post: the trimmed
body together with the freshly drawn id/timestamp stamp. -/
def stampMsg (s : ServerState) (c : ConnId) (body : String) : Message :=
  { id := s.nextId, user := c, message := jsTrim body, timestamp := s.nextId }

/-- The accepted-post tail of `send_message`, with the checks already
passed: stamp the message (trimming the body), append to the room's bounded
history, and broadcast `message` to every transport member of the room,
sender included. -/
def acceptPost (s : ServerState) (c : ConnId) (roomId : RoomId) (room : Room)
    (body : String) : ServerState × List Event :=
  let msg := stampMsg s c body
  let room' := { room with messages := pushBounded room.messages msg }
  let s' := { setRoom s roomId room' with nextId := s.nextId + 1 }
  (s', ioTo s' roomId (fun d => Event.message d msg))

/-- The `send_message` handler: unknown room → `error`; sender not in the
room's `users` set → `error`; otherwise `message.trim()` is evaluated —
which throws if the field is not a string — and the post is accepted.
There is no emptiness check on the trimmed body. -/
def sendMessageV (s : ServerState) (c : ConnId) (roomId : RoomId)
    (mv : JsVal) : SendResult :=
  match s.rooms roomId with
  | none => .ok s [Event.errorEvt c roomNotFoundMsg]
  | some room =>
    if c ∈ room.users then
      match mv with
      | .str body => .ok (acceptPost s c roomId room body).1 (acceptPost s c roomId room body).2
      | .nonString => .throws
    else .ok s [Event.errorEvt c notInRoomMsg]

/-- The body of the `disconnect` handler's loop (lines 253-264): delete the
user from the room's `users` set and broadcast `user_left` to the other
transport members.  This body is dead code in the running server — see
`disconnectC`. -/
def disconnectOne (c : ConnId) (acc : ServerState × List Event) (r : RoomId) :
    ServerState × List Event :=
  match acc.1.rooms r with
  | none => acc
  | some room =>
    let room' := { room with users := room.users.erase c }
    let s2 := setRoom acc.1 r room'
    (s2, acc.2 ++ socketTo s2 c r (fun d => Event.userLeft d r c room'.users))

/-- The `disconnect` handler.  socket.io makes the socket leave all of its
rooms *before* emitting the `disconnect` event (the room set is only
populated during the earlier `disconnecting` event), so the loop over
`Array.from(socket.rooms)` at lines 253-264 iterates an empty collection
and its body never runs: the departed user is left in every room's `users`
set and no `user_left` is broadcast.  Only the `userSockets` /
`socketUsers` deletions take effect; the transport has already cleared the
socket's room set. -/
def disconnectC (s : ServerState) (c : ConnId) : ServerState × List Event :=
  let p := ([] : List RoomId).foldl (disconnectOne c) (s, [])
  ({ p.1 with conns := p.1.conns.erase c,
              sockRooms := fun c' => if c' = c then [] else p.1.sockRooms c' }, p.2)

/-- Modelled from the spec: the server registers no `leave` handler — the
spec's §4.4 `InRoom(roomId) --leave()--> Unbound` transition has no
counterpart under `src/`.  Following §4.4 it removes the current membership
and broadcasts "left", and is a no-op with no current room; the removal and
broadcast are the same as the join handler performs when leaving previous
rooms. -/
def leaveC (s : ServerState) (c : ConnId) : ServerState × List Event :=
  leaveAll s c

/-- A client intent, the input alphabet of the session core.  `send` carries
a string body (the wire-level handler `sendMessageV` also covers non-string
payloads). -/
inductive Intent where
  | connect (c : ConnId)
  | createRoom (r : RoomId) (name : String)
  | join (c : ConnId) (r : RoomId)
  | send (c : ConnId) (r : RoomId) (m : String)
  | leave (c : ConnId)
  | disconnect (c : ConnId)

/-- One dispatch step.  Socket handlers only ever fire for a live socket —
a closed socket emits nothing — so intents from a connection id that is not
currently connected are dropped. -/
def step (s : ServerState) (i : Intent) : ServerState × List Event :=
  match i with
  | .connect c => (connectC s c, [])
  | .createRoom r name => ((createRoom s r name).1, [])
  | .join c r => if c ∈ s.conns then joinRoom s c r else (s, [])
  | .send c r m =>
    if c ∈ s.conns then
      match sendMessageV s c r (.str m) with
      | .ok s' evts => (s', evts)
      | .throws => (s, [])
    else (s, [])
  | .leave c => if c ∈ s.conns then leaveC s c else (s, [])
  | .disconnect c => if c ∈ s.conns then disconnectC s c else (s, [])

/-- Run a trace of intents from a state. -/
def execFrom (s : ServerState) (tr : List Intent) : ServerState :=
  tr.foldl (fun s i => (step s i).1) s

/-- Run a trace of intents from the initial state. -/
def execTrace (tr : List Intent) : ServerState :=
  execFrom init tr

/-- The message an intent gets accepted into room `r`'s history, if any: a
`send` targeting `r` whose checks (sender connected, room known, sender in
the room's `users` set) pass stamps exactly one message. -/
def postDelta (s : ServerState) (i : Intent) (r : RoomId) : List Message :=
  match i with
  | .send c r' m =>
    if r' = r ∧ c ∈ s.conns then
      match s.rooms r with
      | some room => if c ∈ room.users then [stampMsg s c m] else []
      | none => []
    else []
  | _ => []

/-- The stamped messages accepted for room `r` along a trace, in acceptance
order.  This is the trace-level ledger of accepted posts against which the
history buffer is compared. -/
def acceptedAlong (s : ServerState) (tr : List Intent) (r : RoomId) :
    List Message :=
  match tr with
  | [] => []
  | i :: tr' => postDelta s i r ++ acceptedAlong (step s i).1 tr' r

/-- Room `r`'s history buffer in state `s` (empty when `r` is unknown). -/
def Mof (s : ServerState) (r : RoomId) : List Message :=
  match s.rooms r with
  | some rm => rm.messages
  | none => []

/-- The state invariant of the session core, established by `init` and
preserved by every dispatch step:
* the connection list is duplicate-free, and connected ids are recorded
  as used;
* every socket is in at most one transport room (`socket.rooms` beyond the
  socket's own id has at most one element);
* transport membership only mentions live connections and existing rooms;
* every room's `users` set is duplicate-free and mentions only ids that
  have connected at some point;
* for a *live* connection, `users` membership and transport membership
  agree (joins and leaves update the two side by side).  For a
  disconnected id the two come apart: the broken cleanup in `disconnectC`
  leaves the dead id in `users` (a ghost member) while its transport room
  set is empty — so no two-sided sync holds state-wide;
* every room's history holds at most 100 messages. -/
structure Inv (s : ServerState) : Prop where
  connsNodup : s.conns.Nodup
  connsUsed : ∀ c, c ∈ s.conns → c ∈ s.usedIds
  sockLen : ∀ c, (s.sockRooms c).length ≤ 1
  sockConn : ∀ c r, r ∈ s.sockRooms c → c ∈ s.conns
  sockRoomEx : ∀ c r, r ∈ s.sockRooms c → (s.rooms r).isSome
  usersNodup : ∀ r room, s.rooms r = some room → room.users.Nodup
  usersUsed : ∀ r room c, s.rooms r = some room → c ∈ room.users → c ∈ s.usedIds
  syncLive : ∀ r room c, s.rooms r = some room → c ∈ s.conns →
    (c ∈ room.users ↔ r ∈ s.sockRooms c)
  histLen : ∀ r room, s.rooms r = some room → room.messages.length ≤ 100

/-! ## List helpers -/

theorem length_le_one_cases {α : Type} {l : List α} (h : l.length ≤ 1) :
    l = [] ∨ ∃ a, l = [a] := by
  match l with
  | [] => exact Or.inl rfl
  | [a] => exact Or.inr ⟨a, rfl⟩
  | a :: b :: t => simp [List.length_cons] at h

theorem mem_setAdd {α : Type} [DecidableEq α] {l : List α} {x a : α} :
    a ∈ setAdd l x ↔ a = x ∨ a ∈ l := by
  by_cases hx : x ∈ l
  · simp only [setAdd, if_pos hx]
    constructor
    · exact fun h => Or.inr h
    · rintro (rfl | h)
      exacts [hx, h]
  · simp only [setAdd, if_neg hx, List.mem_append, List.mem_singleton]
    exact or_comm

theorem nodup_setAdd {α : Type} [DecidableEq α] {l : List α} (h : l.Nodup)
    (x : α) : (setAdd l x).Nodup := by
  by_cases hx : x ∈ l
  · simpa [setAdd, hx] using h
  · simp only [setAdd, if_neg hx]
    refine List.Nodup.append h (List.nodup_singleton x) ?_
    intro a ha ha'
    rw [List.mem_singleton] at ha'
    exact hx (ha' ▸ ha)

theorem drop_append_drop {α : Type} (m : Nat) :
    ∀ (k : Nat) (l l' : List α), k ≤ l.length →
      (l.drop k ++ l').drop m = (l ++ l').drop (k + m) := by
  intro k l
  induction l generalizing k with
  | nil =>
    intro l' hk
    have : k = 0 := Nat.le_zero.mp hk
    subst this; simp
  | cons a t ih =>
    intro l' hk
    cases k with
    | zero => simp
    | succ k' =>
      simp only [List.drop_succ_cons, List.cons_append, Nat.succ_add]
      exact ih k' l' (Nat.le_of_succ_le_succ hk)

theorem lastN_of_length_le {α : Type} {l : List α} {n : Nat}
    (h : l.length ≤ n) : lastN n l = l := by
  unfold lastN
  rw [Nat.sub_eq_zero_of_le h, List.drop_zero]

theorem lastN_length {α : Type} (n : Nat) (l : List α) :
    (lastN n l).length = min n l.length := by
  unfold lastN
  rw [List.length_drop]
  omega

theorem lastN_append_absorb {α : Type} (n : Nat) (l l' : List α) :
    lastN n (lastN n l ++ l') = lastN n (l ++ l') := by
  by_cases h : l.length ≤ n
  · rw [lastN_of_length_le h]
  · push_neg at h
    unfold lastN
    rw [drop_append_drop _ _ _ _ (Nat.sub_le l.length n)]
    congr 1
    simp only [List.length_append, List.length_drop]
    omega

theorem pushBounded_eq_lastN (h : List Message) (m : Message) :
    pushBounded h m = lastN 100 (h ++ [m]) := by
  by_cases hl : (h ++ [m]).length > 100
  · simp only [pushBounded]
    rw [if_pos hl]
  · simp only [pushBounded, if_neg hl]
    exact (lastN_of_length_le (Nat.le_of_not_lt hl)).symm

theorem pushBounded_length_le {h : List Message} (m : Message) :
    (pushBounded h m).length ≤ 100 ∨ (pushBounded h m).length = h.length + 1 := by
  rw [pushBounded_eq_lastN, lastN_length]
  simp only [List.length_append, List.length_singleton]
  omega

/-! ## State projection lemmas -/

@[simp] theorem setRoom_rooms (s : ServerState) (r : RoomId) (rm : Room)
    (r' : RoomId) :
    (setRoom s r rm).rooms r' = if r' = r then some rm else s.rooms r' := rfl

@[simp] theorem setRoom_conns (s : ServerState) (r : RoomId) (rm : Room) :
    (setRoom s r rm).conns = s.conns := rfl

@[simp] theorem setRoom_sockRooms (s : ServerState) (r : RoomId) (rm : Room) :
    (setRoom s r rm).sockRooms = s.sockRooms := rfl

@[simp] theorem setRoom_nextId (s : ServerState) (r : RoomId) (rm : Room) :
    (setRoom s r rm).nextId = s.nextId := rfl

@[simp] theorem setRoom_usedIds (s : ServerState) (r : RoomId) (rm : Room) :
    (setRoom s r rm).usedIds = s.usedIds := rfl

@[simp] theorem setSockRooms_sockRooms (s : ServerState) (c : ConnId)
    (l : List RoomId) (c' : ConnId) :
    (setSockRooms s c l).sockRooms c' = if c' = c then l else s.sockRooms c' := rfl

@[simp] theorem setSockRooms_rooms (s : ServerState) (c : ConnId)
    (l : List RoomId) : (setSockRooms s c l).rooms = s.rooms := rfl

@[simp] theorem setSockRooms_conns (s : ServerState) (c : ConnId)
    (l : List RoomId) : (setSockRooms s c l).conns = s.conns := rfl

@[simp] theorem setSockRooms_nextId (s : ServerState) (c : ConnId)
    (l : List RoomId) : (setSockRooms s c l).nextId = s.nextId := rfl

@[simp] theorem setSockRooms_usedIds (s : ServerState) (c : ConnId)
    (l : List RoomId) : (setSockRooms s c l).usedIds = s.usedIds := rfl

/-! ## Characterizing the leave/disconnect loops -/

theorem leaveAll_nil {s : ServerState} {c : ConnId} (h : s.sockRooms c = []) :
    leaveAll s c = (s, []) := by
  unfold leaveAll
  rw [h]
  rfl

theorem leaveAll_single {s : ServerState} {c : ConnId} {r0 : RoomId}
    (h : s.sockRooms c = [r0]) : leaveAll s c = leaveOne c (s, []) r0 := by
  unfold leaveAll
  rw [h]
  rfl

theorem leaveOne_some {s : ServerState} {c : ConnId} {r0 : RoomId} {rm0 : Room}
    (h : s.rooms r0 = some rm0) (evts : List Event) :
    leaveOne c (s, evts) r0 =
      (setRoom (setSockRooms s c ((s.sockRooms c).erase r0)) r0
         { rm0 with users := rm0.users.erase c },
       evts ++ socketTo
         (setRoom (setSockRooms s c ((s.sockRooms c).erase r0)) r0
            { rm0 with users := rm0.users.erase c }) c r0
         (fun d => Event.userLeft d r0 c (rm0.users.erase c))) := by
  unfold leaveOne
  simp [h]

/-! ## Broadcast membership lemmas -/

theorem mem_roomMembersT {s : ServerState} {r : RoomId} {d : ConnId} :
    d ∈ roomMembersT s r ↔ d ∈ s.conns ∧ r ∈ s.sockRooms d := by
  simp [roomMembersT, List.mem_filter]

theorem mem_socketTo {s : ServerState} {sender : ConnId} {r : RoomId}
    {mk : ConnId → Event} {e : Event} :
    e ∈ socketTo s sender r mk ↔
      ∃ d, (d ∈ s.conns ∧ r ∈ s.sockRooms d) ∧ d ≠ sender ∧ e = mk d := by
  unfold socketTo
  rw [List.mem_map]
  constructor
  · rintro ⟨d, hd, rfl⟩
    rw [List.mem_filter] at hd
    obtain ⟨hd1, hd2⟩ := hd
    rw [mem_roomMembersT] at hd1
    exact ⟨d, hd1, by simpa using hd2, rfl⟩
  · rintro ⟨d, h1, h2, rfl⟩
    exact ⟨d, List.mem_filter.mpr ⟨mem_roomMembersT.mpr h1, by simpa using h2⟩, rfl⟩

theorem mem_ioTo {s : ServerState} {r : RoomId} {mk : ConnId → Event}
    {e : Event} :
    e ∈ ioTo s r mk ↔ ∃ d, (d ∈ s.conns ∧ r ∈ s.sockRooms d) ∧ e = mk d := by
  unfold ioTo
  rw [List.mem_map]
  constructor
  · rintro ⟨d, hd, rfl⟩
    exact ⟨d, mem_roomMembersT.mp hd, rfl⟩
  · rintro ⟨d, h1, rfl⟩
    exact ⟨d, mem_roomMembersT.mpr h1, rfl⟩

theorem socketTo_ext {s1 s2 : ServerState} {sender : ConnId} {r : RoomId}
    {mk : ConnId → Event} (hc : s1.conns = s2.conns)
    (hs : ∀ d, d ≠ sender → s1.sockRooms d = s2.sockRooms d) :
    socketTo s1 sender r mk = socketTo s2 sender r mk := by
  unfold socketTo roomMembersT
  rw [hc, List.filter_filter, List.filter_filter]
  congr 1
  apply List.filter_congr
  intro d _
  by_cases hd : d = sender
  · subst hd; simp
  · rw [hs d hd]

/-! ## The leave / disconnect loops under the invariant -/

/-- Erasing a live connection's user from a room it is not transport-joined
to (by the live-sync invariant, any room other than its current one)
changes nothing.  The hypothesis `c ∈ s.conns` matters: a *dead* id can
linger in a room's `users` set, where erasing it would change the room. -/
theorem map_eraseUser_id {s : ServerState} {c : ConnId} (hInv : Inv s)
    (hc : c ∈ s.conns) {r : RoomId} (hnr : r ∉ s.sockRooms c) :
    (s.rooms r).map (fun rm => { rm with users := rm.users.erase c }) =
      s.rooms r := by
  cases hr : s.rooms r with
  | none => rfl
  | some rm =>
    have hcm : c ∉ rm.users := fun hm => hnr ((hInv.syncLive r rm c hr hc).mp hm)
    simp [List.erase_of_not_mem hcm]

theorem leaveAll_state_spec {s : ServerState} {c : ConnId} (hInv : Inv s)
    (hc : c ∈ s.conns) :
    (leaveAll s c).1.conns = s.conns
    ∧ (leaveAll s c).1.usedIds = s.usedIds
    ∧ (leaveAll s c).1.nextId = s.nextId
    ∧ (leaveAll s c).1.sockRooms c = []
    ∧ (∀ c', c' ≠ c → (leaveAll s c).1.sockRooms c' = s.sockRooms c')
    ∧ (∀ r, (leaveAll s c).1.rooms r =
        (s.rooms r).map (fun rm => { rm with users := rm.users.erase c })) := by
  rcases length_le_one_cases (hInv.sockLen c) with h | ⟨r0, h⟩
  · rw [leaveAll_nil h]
    refine ⟨rfl, rfl, rfl, h, fun c' _ => rfl, fun r => ?_⟩
    exact (map_eraseUser_id hInv hc (by rw [h]; exact List.not_mem_nil r)).symm
  · have hr0ex := hInv.sockRoomEx c r0 (by rw [h]; exact List.mem_singleton_self r0)
    obtain ⟨rm0, hr0⟩ := Option.isSome_iff_exists.mp hr0ex
    rw [leaveAll_single h, leaveOne_some hr0]
    have he : (s.sockRooms c).erase r0 = [] := by rw [h]; simp
    refine ⟨rfl, rfl, rfl, by simp [he], fun c' hc' => by simp [hc'], fun r => ?_⟩
    by_cases hrr : r = r0
    · subst hrr
      simp [hr0]
    · simp only [setRoom_rooms, setSockRooms_rooms, if_neg hrr]
      exact (map_eraseUser_id hInv hc (by rw [h]; simp [hrr])).symm

/-- Common shape of the invariant proof after a membership-erasing
operation: the state keeps every room with user `c` erased, and `c` no
longer sits in any transport room. -/
theorem Inv_of_erase {s t : ServerState} {c : ConnId} (hInv : Inv s)
    (hnd : t.conns.Nodup)
    (hsub : ∀ c', c' ∈ t.conns → c' ∈ s.conns)
    (hcm : ∀ c', c' ≠ c → c' ∈ s.conns → c' ∈ t.conns)
    (husid : t.usedIds = s.usedIds)
    (hsc : t.sockRooms c = [])
    (hso : ∀ c', c' ≠ c → t.sockRooms c' = s.sockRooms c')
    (hrm : ∀ r, t.rooms r =
      (s.rooms r).map (fun rm => { rm with users := rm.users.erase c })) :
    Inv t := by
  constructor
  · exact hnd
  · intro c' h'
    rw [husid]
    exact hInv.connsUsed c' (hsub c' h')
  · intro c'
    by_cases h : c' = c
    · subst h; rw [hsc]; simp
    · rw [hso c' h]; exact hInv.sockLen c'
  · intro c' r hmem
    by_cases h : c' = c
    · subst h; rw [hsc] at hmem; simp at hmem
    · rw [hso c' h] at hmem
      exact hcm c' h (hInv.sockConn c' r hmem)
  · intro c' r hmem
    by_cases h : c' = c
    · subst h; rw [hsc] at hmem; simp at hmem
    · rw [hso c' h] at hmem
      rw [hrm r]
      have hx := hInv.sockRoomEx c' r hmem
      cases ho : s.rooms r with
      | none => rw [ho] at hx; simp at hx
      | some rm => simp
  · intro r room hr
    rw [hrm r] at hr
    cases ho : s.rooms r with
    | none => rw [ho] at hr; simp at hr
    | some rm =>
      rw [ho] at hr
      simp only [Option.map_some', Option.some.injEq] at hr
      subst hr
      exact List.Nodup.erase c (hInv.usersNodup r rm ho)
  · intro r room c' hr hm
    rw [hrm r] at hr
    cases ho : s.rooms r with
    | none => rw [ho] at hr; simp at hr
    | some rm =>
      rw [ho] at hr
      simp only [Option.map_some', Option.some.injEq] at hr
      subst hr
      rw [husid]
      exact hInv.usersUsed r rm c' ho (List.mem_of_mem_erase hm)
  · intro r room c' hr hconn
    rw [hrm r] at hr
    cases ho : s.rooms r with
    | none => rw [ho] at hr; simp at hr
    | some rm =>
      rw [ho] at hr
      simp only [Option.map_some', Option.some.injEq] at hr
      subst hr
      by_cases h : c' = c
      · subst h
        rw [hsc]
        simp only [List.not_mem_nil, iff_false]
        rw [List.Nodup.mem_erase_iff (hInv.usersNodup r rm ho)]
        rintro ⟨hne, -⟩
        exact hne rfl
      · rw [hso c' h,
          List.Nodup.mem_erase_iff (hInv.usersNodup r rm ho)]
        constructor
        · rintro ⟨-, hm⟩
          exact (hInv.syncLive r rm c' ho (hsub c' hconn)).mp hm
        · intro hm
          exact ⟨h, (hInv.syncLive r rm c' ho (hsub c' hconn)).mpr hm⟩
  · intro r room hr
    rw [hrm r] at hr
    cases ho : s.rooms r with
    | none => rw [ho] at hr; simp at hr
    | some rm =>
      rw [ho] at hr
      simp only [Option.map_some', Option.some.injEq] at hr
      subst hr
      exact hInv.histLen r rm ho

theorem Inv_leaveAll {s : ServerState} {c : ConnId} (hInv : Inv s)
    (hc : c ∈ s.conns) :
    Inv (leaveAll s c).1 := by
  obtain ⟨hco, husid, hni, hsc, hso, hrm⟩ := leaveAll_state_spec (c := c) hInv hc
  exact Inv_of_erase hInv (hco ▸ hInv.connsNodup)
    (fun c' hm => hco ▸ hm) (fun c' _ hm => hco ▸ hm) husid hsc hso hrm

/-! ## The join handler under the invariant -/

theorem joinRoom_spec {s : ServerState} {c : ConnId} {roomId : RoomId}
    {room : Room} (hInv : Inv s) (hc : c ∈ s.conns)
    (hr : s.rooms roomId = some room) :
    (joinRoom s c roomId).1.conns = s.conns
    ∧ (joinRoom s c roomId).1.usedIds = s.usedIds
    ∧ (joinRoom s c roomId).1.nextId = s.nextId
    ∧ (joinRoom s c roomId).1.sockRooms c = [roomId]
    ∧ (∀ c', c' ≠ c → (joinRoom s c roomId).1.sockRooms c' = s.sockRooms c')
    ∧ (joinRoom s c roomId).1.rooms roomId =
        some { room with users := setAdd (room.users.erase c) c }
    ∧ (∀ r', r' ≠ roomId → (joinRoom s c roomId).1.rooms r' =
        (s.rooms r').map (fun rm => { rm with users := rm.users.erase c }))
    ∧ (joinRoom s c roomId).2 =
        (leaveAll s c).2
        ++ socketTo (joinRoom s c roomId).1 c roomId
            (fun d => Event.userJoined d roomId c (setAdd (room.users.erase c) c))
        ++ [Event.roomUsers c roomId (setAdd (room.users.erase c) c),
            Event.messageHistory c roomId room.messages] := by
  obtain ⟨hco, husid, hni, hsc, hso, hrm⟩ := leaveAll_state_spec (c := c) hInv hc
  have hroomsT : (leaveAll s c).1.rooms roomId
      = some { room with users := room.users.erase c } := by
    rw [hrm roomId, hr]
    rfl
  have hadd : setAdd ((leaveAll s c).1.sockRooms c) roomId = [roomId] := by
    rw [hsc]
    rfl
  have hmain : joinRoom s c roomId =
      (setRoom (setSockRooms (leaveAll s c).1 c [roomId]) roomId
         { room with users := setAdd (room.users.erase c) c },
       (leaveAll s c).2
         ++ socketTo (setRoom (setSockRooms (leaveAll s c).1 c [roomId]) roomId
              { room with users := setAdd (room.users.erase c) c }) c roomId
              (fun d => Event.userJoined d roomId c (setAdd (room.users.erase c) c))
         ++ [Event.roomUsers c roomId (setAdd (room.users.erase c) c),
             Event.messageHistory c roomId room.messages]) := by
    simp only [joinRoom, hr, hadd, setSockRooms_rooms, hroomsT]
  refine ⟨?_, ?_, ?_, ?_, ?_, ?_, ?_, ?_⟩
  · rw [hmain]
    simpa using hco
  · rw [hmain]
    simpa using husid
  · rw [hmain]
    simpa using hni
  · rw [hmain]
    simp
  · intro c' hc'
    rw [hmain]
    simpa [hc'] using hso c' hc'
  · rw [hmain]
    simp
  · intro r' hr'
    rw [hmain]
    simpa [hr'] using hrm r'
  · conv in socketTo _ c roomId _ => rw [hmain]
    rw [hmain]

theorem Inv_joinRoom {s : ServerState} {c : ConnId} {roomId : RoomId}
    (hInv : Inv s) (hc : c ∈ s.conns) :
    Inv (joinRoom s c roomId).1 := by
  cases hr : s.rooms roomId with
  | none => simpa [joinRoom, hr] using hInv
  | some room =>
    obtain ⟨hco, husid, hni, hsc, hso, hroom, hother, hevts⟩ :=
      joinRoom_spec (c := c) hInv hc hr
    have hnd := hInv.usersNodup roomId room hr
    constructor
    · rw [hco]
      exact hInv.connsNodup
    · intro c' h'
      rw [husid]
      rw [hco] at h'
      exact hInv.connsUsed c' h'
    · intro c'
      by_cases h : c' = c
      · subst h
        rw [hsc]
        simp
      · rw [hso c' h]
        exact hInv.sockLen c'
    · intro c' r hmem
      by_cases h : c' = c
      · subst h
        rw [hco]
        exact hc
      · rw [hso c' h] at hmem
        rw [hco]
        exact hInv.sockConn c' r hmem
    · intro c' r hmem
      by_cases hrr : r = roomId
      · subst hrr
        rw [hroom]
        rfl
      · have h : c' ≠ c := by
          intro he
          subst he
          rw [hsc] at hmem
          simp at hmem
          exact hrr hmem
        rw [hso c' h] at hmem
        rw [hother r hrr]
        have hx := hInv.sockRoomEx c' r hmem
        cases ho : s.rooms r with
        | none => rw [ho] at hx; simp at hx
        | some rm => simp
    · intro r rm hrm2
      by_cases hrr : r = roomId
      · subst hrr
        rw [hroom] at hrm2
        simp only [Option.some.injEq] at hrm2
        subst hrm2
        exact nodup_setAdd (List.Nodup.erase c hnd) c
      · rw [hother r hrr] at hrm2
        cases ho : s.rooms r with
        | none => rw [ho] at hrm2; simp at hrm2
        | some rm0 =>
          rw [ho] at hrm2
          simp only [Option.map_some', Option.some.injEq] at hrm2
          subst hrm2
          exact List.Nodup.erase c (hInv.usersNodup r rm0 ho)
    · intro r rm c' hrm2 hm
      rw [husid]
      by_cases hrr : r = roomId
      · subst hrr
        rw [hroom] at hrm2
        simp only [Option.some.injEq] at hrm2
        subst hrm2
        rcases mem_setAdd.mp hm with h2 | h2
        · subst h2
          exact hInv.connsUsed c' hc
        · exact hInv.usersUsed _ room c' hr (List.mem_of_mem_erase h2)
      · rw [hother r hrr] at hrm2
        cases ho : s.rooms r with
        | none => rw [ho] at hrm2; simp at hrm2
        | some rm0 =>
          rw [ho] at hrm2
          simp only [Option.map_some', Option.some.injEq] at hrm2
          subst hrm2
          exact hInv.usersUsed r rm0 c' ho (List.mem_of_mem_erase hm)
    · intro r rm c' hrm2 hconn
      rw [hco] at hconn
      by_cases hrr : r = roomId
      · subst hrr
        rw [hroom] at hrm2
        simp only [Option.some.injEq] at hrm2
        subst hrm2
        by_cases h : c' = c
        · subst h
          rw [hsc]
          simp [mem_setAdd]
        · rw [hso c' h]
          constructor
          · intro h1
            rcases mem_setAdd.mp h1 with h2 | h2
            · exact absurd h2 h
            · exact (hInv.syncLive _ room c' hr hconn).mp
                ((List.Nodup.mem_erase_iff hnd).mp h2).2
          · intro hm
            exact mem_setAdd.mpr (Or.inr ((List.Nodup.mem_erase_iff hnd).mpr
              ⟨h, (hInv.syncLive _ room c' hr hconn).mpr hm⟩))
      · rw [hother r hrr] at hrm2
        cases ho : s.rooms r with
        | none => rw [ho] at hrm2; simp at hrm2
        | some rm0 =>
          rw [ho] at hrm2
          simp only [Option.map_some', Option.some.injEq] at hrm2
          subst hrm2
          by_cases h : c' = c
          · subst h
            rw [hsc]
            simp only [List.mem_singleton]
            constructor
            · intro h1
              exact absurd rfl
                ((List.Nodup.mem_erase_iff (hInv.usersNodup r rm0 ho)).mp h1).1
            · intro he
              exact absurd he hrr
          · rw [hso c' h]
            constructor
            · intro h1
              exact (hInv.syncLive r rm0 c' ho hconn).mp
                ((List.Nodup.mem_erase_iff (hInv.usersNodup r rm0 ho)).mp h1).2
            · intro hm
              exact (List.Nodup.mem_erase_iff (hInv.usersNodup r rm0 ho)).mpr
                ⟨h, (hInv.syncLive r rm0 c' ho hconn).mpr hm⟩
    · intro r rm hrm2
      by_cases hrr : r = roomId
      · subst hrr
        rw [hroom] at hrm2
        simp only [Option.some.injEq] at hrm2
        subst hrm2
        exact hInv.histLen _ room hr
      · rw [hother r hrr] at hrm2
        cases ho : s.rooms r with
        | none => rw [ho] at hrm2; simp at hrm2
        | some rm0 =>
          rw [ho] at hrm2
          simp only [Option.map_some', Option.some.injEq] at hrm2
          subst hrm2
          exact hInv.histLen r rm0 ho

/-! ## The send handler -/

theorem pushBounded_le (h : List Message) (m : Message) :
    (pushBounded h m).length ≤ 100 := by
  rw [pushBounded_eq_lastN, lastN_length]
  exact Nat.min_le_left _ _

theorem ioTo_ext {s1 s2 : ServerState} {r : RoomId} {mk : ConnId → Event}
    (hc : s1.conns = s2.conns)
    (hs : ∀ d, s1.sockRooms d = s2.sockRooms d) :
    ioTo s1 r mk = ioTo s2 r mk := by
  unfold ioTo roomMembersT
  rw [hc]
  congr 1
  apply List.filter_congr
  intro d _
  rw [hs d]

theorem acceptPost_def {s : ServerState} {c : ConnId} {r : RoomId}
    {room : Room} {b : String} :
    acceptPost s c r room b =
      ({ setRoom s r
           { room with messages := pushBounded room.messages (stampMsg s c b) }
         with nextId := s.nextId + 1 },
       ioTo s r (fun d => Event.message d (stampMsg s c b))) := by
  unfold acceptPost
  refine Prod.ext rfl ?_
  apply ioTo_ext rfl
  intro d
  rfl

theorem sendMessageV_noRoom {s : ServerState} {c : ConnId} {r : RoomId}
    (hr : s.rooms r = none) (mv : JsVal) :
    sendMessageV s c r mv = .ok s [Event.errorEvt c roomNotFoundMsg] := by
  simp [sendMessageV, hr]

theorem sendMessageV_notMember {s : ServerState} {c : ConnId} {r : RoomId}
    {room : Room} (hr : s.rooms r = some room) (hm : c ∉ room.users)
    (mv : JsVal) :
    sendMessageV s c r mv = .ok s [Event.errorEvt c notInRoomMsg] := by
  simp [sendMessageV, hr, hm]

theorem sendMessageV_accept {s : ServerState} {c : ConnId} {r : RoomId}
    {room : Room} {m : String} (hr : s.rooms r = some room)
    (hm : c ∈ room.users) :
    sendMessageV s c r (.str m) =
      .ok (acceptPost s c r room m).1 (acceptPost s c r room m).2 := by
  simp [sendMessageV, hr, hm]

theorem sendMessageV_nonString_throws {s : ServerState} {c : ConnId}
    {r : RoomId} {room : Room} (hr : s.rooms r = some room)
    (hm : c ∈ room.users) :
    sendMessageV s c r .nonString = .throws := by
  simp [sendMessageV, hr, hm]

theorem sendMessageV_str_no_throw (s : ServerState) (c : ConnId) (r : RoomId)
    (m : String) : sendMessageV s c r (.str m) ≠ .throws := by
  cases hr : s.rooms r with
  | none => rw [sendMessageV_noRoom hr]; intro h; exact SendResult.noConfusion h
  | some room =>
    by_cases hm : c ∈ room.users
    · rw [sendMessageV_accept hr hm]; intro h; exact SendResult.noConfusion h
    · rw [sendMessageV_notMember hr hm]; intro h; exact SendResult.noConfusion h

theorem Inv_acceptPost {s : ServerState} {c : ConnId} {r : RoomId}
    {room : Room} {m : String} (hInv : Inv s) (hr : s.rooms r = some room) :
    Inv (acceptPost s c r room m).1 := by
  rw [acceptPost_def]
  constructor
  · exact hInv.connsNodup
  · exact hInv.connsUsed
  · exact hInv.sockLen
  · exact hInv.sockConn
  · intro c' r' hmem
    have hx := hInv.sockRoomEx c' r' hmem
    by_cases hrr : r' = r
    · subst hrr; simp
    · simpa [hrr] using hx
  · intro r' rm' hrm'
    by_cases hrr : r' = r
    · subst hrr
      simp only [setRoom_rooms, eq_self_iff_true, if_true, Option.some.injEq] at hrm'
      subst hrm'
      exact hInv.usersNodup _ room hr
    · simp only [setRoom_rooms, if_neg hrr] at hrm'
      exact hInv.usersNodup r' rm' hrm'
  · intro r' rm' c' hrm' hm
    by_cases hrr : r' = r
    · subst hrr
      simp only [setRoom_rooms, eq_self_iff_true, if_true, Option.some.injEq] at hrm'
      subst hrm'
      exact hInv.usersUsed _ room c' hr hm
    · simp only [setRoom_rooms, if_neg hrr] at hrm'
      exact hInv.usersUsed r' rm' c' hrm' hm
  · intro r' rm' c' hrm' hconn
    by_cases hrr : r' = r
    · subst hrr
      simp only [setRoom_rooms, eq_self_iff_true, if_true, Option.some.injEq] at hrm'
      subst hrm'
      exact hInv.syncLive _ room c' hr hconn
    · simp only [setRoom_rooms, if_neg hrr] at hrm'
      exact hInv.syncLive r' rm' c' hrm' hconn
  · intro r' rm' hrm'
    by_cases hrr : r' = r
    · subst hrr
      simp only [setRoom_rooms, eq_self_iff_true, if_true, Option.some.injEq] at hrm'
      subst hrm'
      exact pushBounded_le room.messages _
    · simp only [setRoom_rooms, if_neg hrr] at hrm'
      exact hInv.histLen r' rm' hrm'

/-! ## Invariant preservation across a dispatch step -/

theorem Inv_connectC {s : ServerState} (hInv : Inv s) (c : ConnId) :
    Inv (connectC s c) := by
  by_cases hc : c ∈ s.usedIds
  · simpa [connectC, hc] using hInv
  · have hcc : c ∉ s.conns := fun h => hc (hInv.connsUsed c h)
    simp only [connectC, if_neg hc]
    constructor
    · rw [List.nodup_append]
      refine ⟨hInv.connsNodup, List.nodup_singleton c, ?_⟩
      intro a ha hb
      rw [List.mem_singleton] at hb
      subst hb
      exact hcc ha
    · intro c' h'
      rcases List.mem_append.mp h' with h' | h'
      · exact List.mem_append_left _ (hInv.connsUsed c' h')
      · exact List.mem_append_right _ h'
    · intro c'
      by_cases h : c' = c
      · simp [h]
      · simpa [h] using hInv.sockLen c'
    · intro c' r hmem
      by_cases h : c' = c
      · subst h
        simp at hmem
      · simp only [if_neg h] at hmem
        exact List.mem_append_left _ (hInv.sockConn c' r hmem)
    · intro c' r hmem
      by_cases h : c' = c
      · subst h
        simp at hmem
      · simp only [if_neg h] at hmem
        exact hInv.sockRoomEx c' r hmem
    · exact hInv.usersNodup
    · intro r rm c' hrm hm
      exact List.mem_append_left _ (hInv.usersUsed r rm c' hrm hm)
    · intro r rm c' hrm hconn
      by_cases h : c' = c
      · subst h
        simp only [eq_self_iff_true, if_true, List.not_mem_nil, iff_false]
        intro hm
        exact hc (hInv.usersUsed r rm c' hrm hm)
      · simp only [if_neg h]
        rcases List.mem_append.mp hconn with hconn' | hconn'
        · exact hInv.syncLive r rm c' hrm hconn'
        · rw [List.mem_singleton] at hconn'
          exact absurd hconn' h
    · exact hInv.histLen

theorem Inv_createRoom {s : ServerState} (hInv : Inv s) (r : RoomId)
    (nm : String) : Inv (createRoom s r nm).1 := by
  by_cases hn : (jsTrim nm).length = 0
  · simpa [createRoom, hn] using hInv
  · simp only [createRoom, if_neg hn]
    cases hr : s.rooms r with
    | some rm => simpa using hInv
    | none =>
      constructor
      · exact hInv.connsNodup
      · exact hInv.connsUsed
      · exact hInv.sockLen
      · exact hInv.sockConn
      · intro c' r' hmem
        by_cases hrr : r' = r
        · simp [hrr]
        · have hx := hInv.sockRoomEx c' r' hmem
          simpa [hrr] using hx
      · intro r' rm' hrm'
        by_cases hrr : r' = r
        · simp only [hrr, eq_self_iff_true, if_true, Option.some.injEq] at hrm'
          subst hrm'
          exact List.nodup_nil
        · simp only [if_neg hrr] at hrm'
          exact hInv.usersNodup r' rm' hrm'
      · intro r' rm' c' hrm' hm
        by_cases hrr : r' = r
        · simp only [hrr, eq_self_iff_true, if_true, Option.some.injEq] at hrm'
          subst hrm'
          simp at hm
        · simp only [if_neg hrr] at hrm'
          exact hInv.usersUsed r' rm' c' hrm' hm
      · intro r' rm' c' hrm' hconn
        by_cases hrr : r' = r
        · subst hrr
          simp only [eq_self_iff_true, if_true, Option.some.injEq] at hrm'
          subst hrm'
          simp only [List.not_mem_nil, false_iff]
          intro hmem
          have hx := hInv.sockRoomEx c' r' hmem
          rw [hr] at hx
          simp at hx
        · simp only [if_neg hrr] at hrm'
          exact hInv.syncLive r' rm' c' hrm' hconn
      · intro r' rm' hrm'
        by_cases hrr : r' = r
        · simp only [hrr, eq_self_iff_true, if_true, Option.some.injEq] at hrm'
          subst hrm'
          simp
        · simp only [if_neg hrr] at hrm'
          exact hInv.histLen r' rm' hrm'

theorem Inv_disconnectC {s : ServerState} {c : ConnId} (hInv : Inv s) :
    Inv (disconnectC s c).1 := by
  constructor
  · exact List.Nodup.erase c hInv.connsNodup
  · intro c' h'
    exact hInv.connsUsed c' (List.mem_of_mem_erase h')
  · intro c'
    show (if c' = c then [] else s.sockRooms c').length ≤ 1
    by_cases h : c' = c
    · simp [h]
    · simpa [h] using hInv.sockLen c'
  · intro c' r hmem
    rw [show (disconnectC s c).1.sockRooms c'
        = if c' = c then [] else s.sockRooms c' from rfl] at hmem
    by_cases h : c' = c
    · rw [if_pos h] at hmem
      simp at hmem
    · rw [if_neg h] at hmem
      show c' ∈ s.conns.erase c
      exact (List.mem_erase_of_ne h).mpr (hInv.sockConn c' r hmem)
  · intro c' r hmem
    rw [show (disconnectC s c).1.sockRooms c'
        = if c' = c then [] else s.sockRooms c' from rfl] at hmem
    by_cases h : c' = c
    · rw [if_pos h] at hmem
      simp at hmem
    · rw [if_neg h] at hmem
      exact hInv.sockRoomEx c' r hmem
  · exact hInv.usersNodup
  · exact hInv.usersUsed
  · intro r rm c' hrm hconn
    have h1 := (List.Nodup.mem_erase_iff hInv.connsNodup).mp hconn
    show c' ∈ rm.users ↔ r ∈ (if c' = c then [] else s.sockRooms c')
    rw [if_neg h1.1]
    exact hInv.syncLive r rm c' hrm h1.2
  · exact hInv.histLen

theorem Inv_step {s : ServerState} (hInv : Inv s) (i : Intent) :
    Inv (step s i).1 := by
  cases i with
  | connect c => exact Inv_connectC hInv c
  | createRoom r nm => exact Inv_createRoom hInv r nm
  | join c r =>
    by_cases hc : c ∈ s.conns
    · simp only [step, if_pos hc]
      exact Inv_joinRoom hInv hc
    · simpa [step, hc] using hInv
  | send c r m =>
    by_cases hc : c ∈ s.conns
    · simp only [step, if_pos hc]
      cases hsr : s.rooms r with
      | none => simpa [sendMessageV_noRoom hsr] using hInv
      | some room =>
        by_cases hm : c ∈ room.users
        · rw [sendMessageV_accept hsr hm]
          exact Inv_acceptPost hInv hsr
        · simpa [sendMessageV_notMember hsr hm] using hInv
    · simpa [step, hc] using hInv
  | leave c =>
    by_cases hc : c ∈ s.conns
    · simp only [step, if_pos hc]
      exact Inv_leaveAll (c := c) hInv hc
    · simpa [step, hc] using hInv
  | disconnect c =>
    by_cases hc : c ∈ s.conns
    · simp only [step, if_pos hc]
      exact Inv_disconnectC hInv
    · simpa [step, hc] using hInv

theorem Inv_init : Inv init := by
  constructor <;> intros <;> simp_all [init]

theorem Inv_execFrom {s : ServerState} (hInv : Inv s) (tr : List Intent) :
    Inv (execFrom s tr) := by
  induction tr generalizing s with
  | nil => exact hInv
  | cons i tr ih => exact ih (Inv_step hInv i)

theorem Inv_execTrace (tr : List Intent) : Inv (execTrace tr) :=
  Inv_execFrom Inv_init tr

/-! ## History evolution along a trace -/

theorem Mof_some {s : ServerState} {r : RoomId} {rm : Room}
    (h : s.rooms r = some rm) : Mof s r = rm.messages := by
  unfold Mof
  rw [h]

theorem Mof_none {s : ServerState} {r : RoomId} (h : s.rooms r = none) :
    Mof s r = [] := by
  unfold Mof
  rw [h]

theorem Mof_congr {s1 s2 : ServerState} {r : RoomId}
    (h : s1.rooms r = s2.rooms r) : Mof s1 r = Mof s2 r := by
  unfold Mof
  rw [h]

theorem Mof_le {s : ServerState} (hInv : Inv s) (r : RoomId) :
    (Mof s r).length ≤ 100 := by
  cases hr : s.rooms r with
  | none => rw [Mof_none hr]; simp
  | some rm => rw [Mof_some hr]; exact hInv.histLen r rm hr

theorem step_Mof {s : ServerState} (hInv : Inv s) (i : Intent) (r : RoomId) :
    Mof (step s i).1 r = lastN 100 (Mof s r ++ postDelta s i r) := by
  have hMle : (Mof s r).length ≤ 100 := Mof_le hInv r
  cases i with
  | connect c =>
    have hrr : (step s (.connect c)).1.rooms r = s.rooms r := by
      by_cases hc : c ∈ s.usedIds <;> simp [step, connectC, hc]
    rw [Mof_congr hrr]
    simp only [postDelta, List.append_nil]
    exact (lastN_of_length_le hMle).symm
  | createRoom r' nm =>
    simp only [postDelta, List.append_nil]
    by_cases hn : (jsTrim nm).length = 0
    · rw [Mof_congr (show (step s (.createRoom r' nm)).1.rooms r = s.rooms r by
        simp [step, createRoom, hn])]
      exact (lastN_of_length_le hMle).symm
    · cases hr' : s.rooms r' with
      | some rm =>
        rw [Mof_congr (show (step s (.createRoom r' nm)).1.rooms r = s.rooms r by
          simp [step, createRoom, hn, hr'])]
        exact (lastN_of_length_le hMle).symm
      | none =>
        by_cases hrr : r = r'
        · subst hrr
          have h1 : Mof s r = [] := Mof_none hr'
          have h2 : Mof (step s (.createRoom r nm)).1 r = [] := by
            have hx : (step s (.createRoom r nm)).1.rooms r =
                some { name := jsTrim nm, messages := [], users := [] } := by
              simp [step, createRoom, hn, hr']
            rw [Mof_some hx]
          rw [h1, h2]
          rfl
        · rw [Mof_congr (show (step s (.createRoom r' nm)).1.rooms r = s.rooms r by
            simp [step, createRoom, hn, hr', hrr])]
          exact (lastN_of_length_le hMle).symm
  | join c r' =>
    simp only [postDelta, List.append_nil]
    by_cases hc : c ∈ s.conns
    · cases hr' : s.rooms r' with
      | none =>
        rw [Mof_congr (show (step s (.join c r')).1.rooms r = s.rooms r by
          simp [step, hc, joinRoom, hr'])]
        exact (lastN_of_length_le hMle).symm
      | some room =>
        obtain ⟨-, -, -, -, -, hroom, hother, -⟩ := joinRoom_spec (c := c) hInv hc hr'
        by_cases hrr : r = r'
        · subst hrr
          have h1 : Mof s r = room.messages := Mof_some hr'
          have h2 : Mof (step s (.join c r)).1 r = room.messages := by
            have hx : (step s (.join c r)).1.rooms r
                = some { room with users := setAdd (room.users.erase c) c } := by
              simpa [step, hc] using hroom
            rw [Mof_some hx]
          rw [h1, h2]
          exact (lastN_of_length_le (h1 ▸ hMle)).symm
        · have h2 : Mof (step s (.join c r')).1 r = Mof s r := by
            have hx : (step s (.join c r')).1.rooms r =
                (s.rooms r).map (fun rm => { rm with users := rm.users.erase c }) := by
              simpa [step, hc] using hother r hrr
            unfold Mof
            rw [hx]
            cases ho : s.rooms r <;> simp
          rw [h2]
          exact (lastN_of_length_le hMle).symm
    · rw [Mof_congr (show (step s (.join c r')).1.rooms r = s.rooms r by
        simp [step, hc])]
      exact (lastN_of_length_le hMle).symm
  | leave c =>
    simp only [postDelta, List.append_nil]
    by_cases hc : c ∈ s.conns
    · obtain ⟨-, -, -, -, -, hrm⟩ := leaveAll_state_spec (c := c) hInv hc
      have h2 : Mof (step s (.leave c)).1 r = Mof s r := by
        have hx : (step s (.leave c)).1.rooms r =
            (s.rooms r).map (fun rm => { rm with users := rm.users.erase c }) := by
          simpa [step, hc, leaveC] using hrm r
        unfold Mof
        rw [hx]
        cases ho : s.rooms r <;> simp
      rw [h2]
      exact (lastN_of_length_le hMle).symm
    · rw [Mof_congr (show (step s (.leave c)).1.rooms r = s.rooms r by
        simp [step, hc])]
      exact (lastN_of_length_le hMle).symm
  | disconnect c =>
    simp only [postDelta, List.append_nil]
    have hrr : (step s (.disconnect c)).1.rooms r = s.rooms r := by
      by_cases hc : c ∈ s.conns <;> simp [step, disconnectC, hc]
    rw [Mof_congr hrr]
    exact (lastN_of_length_le hMle).symm
  | send c r' m =>
    by_cases hc : c ∈ s.conns
    · cases hsr : s.rooms r' with
      | none =>
        have hstep : (step s (.send c r' m)).1 = s := by
          simp [step, hc, sendMessageV_noRoom hsr]
        have hdelta : postDelta s (.send c r' m) r = [] := by
          by_cases hrr : r' = r
          · subst hrr
            simp [postDelta, hsr]
          · simp [postDelta, hrr]
        rw [hstep, hdelta, List.append_nil]
        exact (lastN_of_length_le hMle).symm
      | some room =>
        by_cases hm : c ∈ room.users
        · have hstep : (step s (.send c r' m)).1 = (acceptPost s c r' room m).1 := by
            simp [step, hc, sendMessageV_accept hsr hm]
          by_cases hrr : r' = r
          · subst hrr
            have hdelta : postDelta s (.send c r' m) r' = [stampMsg s c m] := by
              simp [postDelta, hc, hsr, hm]
            have h1 : Mof s r' = room.messages := Mof_some hsr
            have h2 : Mof (step s (.send c r' m)).1 r' =
                pushBounded room.messages (stampMsg s c m) := by
              have hx : (step s (.send c r' m)).1.rooms r' =
                  some { room with
                          messages := pushBounded room.messages (stampMsg s c m) } := by
                rw [hstep, acceptPost_def]
                simp
              rw [Mof_some hx]
            rw [h1, h2, hdelta, pushBounded_eq_lastN]
          · have hdelta : postDelta s (.send c r' m) r = [] := by
              simp [postDelta, hrr]
            have h2 : Mof (step s (.send c r' m)).1 r = Mof s r := by
              apply Mof_congr
              rw [hstep, acceptPost_def]
              have hrr2 : ¬r = r' := fun h => hrr h.symm
              simp [hrr2]
            rw [h2, hdelta, List.append_nil]
            exact (lastN_of_length_le hMle).symm
        · have hstep : (step s (.send c r' m)).1 = s := by
            simp [step, hc, sendMessageV_notMember hsr hm]
          have hdelta : postDelta s (.send c r' m) r = [] := by
            by_cases hrr : r' = r
            · subst hrr
              simp [postDelta, hsr, hm]
            · simp [postDelta, hrr]
          rw [hstep, hdelta, List.append_nil]
          exact (lastN_of_length_le hMle).symm
    · have hstep : (step s (.send c r' m)).1 = s := by
        simp [step, hc]
      have hdelta : postDelta s (.send c r' m) r = [] := by
        simp [postDelta, hc]
      rw [hstep, hdelta, List.append_nil]
      exact (lastN_of_length_le hMle).symm

theorem execFrom_Mof {tr : List Intent} : ∀ {s : ServerState}, Inv s →
    ∀ r, Mof (execFrom s tr) r = lastN 100 (Mof s r ++ acceptedAlong s tr r) := by
  induction tr with
  | nil =>
    intro s hInv r
    simp only [execFrom, List.foldl_nil, acceptedAlong, List.append_nil]
    exact (lastN_of_length_le (Mof_le hInv r)).symm
  | cons i tr ih =>
    intro s hInv r
    have h1 : execFrom s (i :: tr) = execFrom (step s i).1 tr := rfl
    rw [h1, ih (Inv_step hInv i) r, step_Mof hInv i r, lastN_append_absorb,
      List.append_assoc]
    rfl

theorem execTrace_Mof (tr : List Intent) (r : RoomId) :
    Mof (execTrace tr) r = lastN 100 (acceptedAlong init tr r) := by
  have h := @execFrom_Mof tr init Inv_init r
  rw [show Mof init r = [] from rfl, List.nil_append] at h
  exact h

/-! ## Further helpers for the claim theorems -/

/-- An accepted post's full fan-out: one `message` event per transport
member of the room, each carrying the stamped message. -/
theorem send_accept_evts {s : ServerState} {c : ConnId} {r : RoomId}
    {room : Room} {m : String} (hc : c ∈ s.conns) (hr : s.rooms r = some room)
    (hm : c ∈ room.users) :
    (step s (.send c r m)).2 =
      (roomMembersT s r).map (fun d => Event.message d (stampMsg s c m)) := by
  have h : (step s (.send c r m)).2 = (acceptPost s c r room m).2 := by
    simp [step, hc, sendMessageV_accept hr hm]
  rw [h, acceptPost_def]
  rfl

theorem send_accept_state {s : ServerState} {c : ConnId} {r : RoomId}
    {room : Room} {m : String} (hc : c ∈ s.conns) (hr : s.rooms r = some room)
    (hm : c ∈ room.users) :
    (step s (.send c r m)).1.rooms r =
      some { room with messages := pushBounded room.messages (stampMsg s c m) }
    ∧ (∀ r', r' ≠ r → (step s (.send c r m)).1.rooms r' = s.rooms r')
    ∧ (step s (.send c r m)).1.conns = s.conns
    ∧ (step s (.send c r m)).1.sockRooms = s.sockRooms
    ∧ (step s (.send c r m)).1.nextId = s.nextId + 1 := by
  have hstep : (step s (.send c r m)).1 = (acceptPost s c r room m).1 := by
    simp [step, hc, sendMessageV_accept hr hm]
  rw [hstep, acceptPost_def]
  exact ⟨by simp, fun r' hrr => by simp [hrr], rfl, rfl, rfl⟩

/-! ## Claim theorems -/

/-- C8, not-a-member rejection with no side effects: a send whose sender is
not in the target room's `users` set leaves the state (hence every room's
history) unchanged and emits exactly one `error` event, addressed to the
sender only; no broadcast of any kind occurs. -/
theorem not_a_member_rejection (s : ServerState) (c : ConnId) (r : RoomId)
    (room : Room) (m : String) (hc : c ∈ s.conns)
    (hr : s.rooms r = some room) (hm : c ∉ room.users) :
    step s (.send c r m) = (s, [Event.errorEvt c notInRoomMsg])
    ∧ (step s (.send c r m)).1.rooms r = some room
    ∧ (∀ e, e ∈ (step s (.send c r m)).2 → e = Event.errorEvt c notInRoomMsg) := by
  have h : step s (.send c r m) = (s, [Event.errorEvt c notInRoomMsg]) := by
    simp [step, hc, sendMessageV_notMember hr hm]
  refine ⟨h, by rw [h]; exact hr, ?_⟩
  intro e he
  rw [h] at he
  simpa using he

/-- C8 witness. -/
theorem not_a_member_rejection_witness :
    step (execTrace [.createRoom "r" "g", .connect 1, .connect 2, .join 1 "r"])
        (.send 2 "r" "hi")
      = (execTrace [.createRoom "r" "g", .connect 1, .connect 2, .join 1 "r"],
         [Event.errorEvt 2 notInRoomMsg]) :=
  (not_a_member_rejection
    (execTrace [.createRoom "r" "g", .connect 1, .connect 2, .join 1 "r"])
    2 "r" ⟨"g", [], [1]⟩ "hi" (by decide) (by decide) (by decide)).1

/-- C9, the server trims the body before stamping: an accepted post stores
and broadcasts `jsTrim m` — the client-supplied body with leading and
trailing whitespace removed — and the stored history entry is the very
message broadcast, sitting at the end of the updated buffer. -/
theorem body_trimmed_on_accept (s : ServerState) (c : ConnId) (r : RoomId)
    (room : Room) (m : String) (hc : c ∈ s.conns) (hr : s.rooms r = some room)
    (hm : c ∈ room.users) :
    (stampMsg s c m).message = jsTrim m
    ∧ (step s (.send c r m)).1.rooms r =
        some { room with messages := pushBounded room.messages (stampMsg s c m) }
    ∧ (step s (.send c r m)).2 =
        (roomMembersT s r).map (fun d => Event.message d (stampMsg s c m))
    ∧ (∀ e, e ∈ (step s (.send c r m)).2 →
        ∃ d, e = Event.message d (stampMsg s c m))
    ∧ (∃ h0, pushBounded room.messages (stampMsg s c m) = h0 ++ [stampMsg s c m]) := by
  obtain ⟨h1, -, -, -, -⟩ := send_accept_state (m := m) hc hr hm
  have hevts := send_accept_evts (m := m) hc hr hm
  refine ⟨rfl, h1, hevts, ?_, ?_⟩
  · intro e he
    rw [hevts, List.mem_map] at he
    obtain ⟨d, -, hd⟩ := he
    exact ⟨d, hd.symm⟩
  · refine ⟨room.messages.drop (room.messages.length + 1 - 100), ?_⟩
    rw [pushBounded_eq_lastN]
    unfold lastN
    rw [List.length_append, List.length_singleton]
    have hk : room.messages.length + 1 - 100 ≤ room.messages.length := by omega
    have hd := drop_append_drop 0 (room.messages.length + 1 - 100)
      room.messages [stampMsg s c m] hk
    rw [List.drop_zero, Nat.add_zero] at hd
    exact hd.symm

/-- C9 witness. -/
theorem body_trimmed_on_accept_witness :
    (stampMsg (execTrace [.createRoom "r" "g", .connect 1, .join 1 "r"])
      1 "  hi \t").message = jsTrim "  hi \t" :=
  (body_trimmed_on_accept
    (execTrace [.createRoom "r" "g", .connect 1, .join 1 "r"])
    1 "r" ⟨"g", [], [1]⟩ "  hi \t" (by decide) (by decide) (by decide)).1

/-- C10, the send handler is not total: when the payload's `message` field
is not a string and the room/membership checks pass, the handler throws
(calling `.trim()` on a non-string) instead of emitting an `error` event;
when a check fails the error event is emitted before the trim, and under
the precondition that the body is a string no throwing branch is
reachable. -/
theorem send_handler_partiality :
    (∀ (s : ServerState) (c : ConnId) (r : RoomId) (room : Room),
      s.rooms r = some room → c ∈ room.users →
        sendMessageV s c r .nonString = .throws)
    ∧ (∀ (s : ServerState) (c : ConnId) (r : RoomId),
        s.rooms r = none →
          sendMessageV s c r .nonString = .ok s [Event.errorEvt c roomNotFoundMsg])
    ∧ (∀ (s : ServerState) (c : ConnId) (r : RoomId) (room : Room),
        s.rooms r = some room → c ∉ room.users →
          sendMessageV s c r .nonString = .ok s [Event.errorEvt c notInRoomMsg])
    ∧ (∀ (s : ServerState) (c : ConnId) (r : RoomId) (m : String),
        sendMessageV s c r (.str m) ≠ .throws) :=
  ⟨fun _ _ _ _ hr hm => sendMessageV_nonString_throws hr hm,
   fun _ _ _ hr => sendMessageV_noRoom hr _,
   fun _ _ _ _ hr hm => sendMessageV_notMember hr hm _,
   sendMessageV_str_no_throw⟩

/-- C10 witness. -/
theorem send_handler_partiality_witness :
    sendMessageV (execTrace [.createRoom "r" "g", .connect 1, .join 1 "r"])
      1 "r" .nonString = .throws :=
  send_handler_partiality.1
    (execTrace [.createRoom "r" "g", .connect 1, .join 1 "r"])
    1 "r" ⟨"g", [], [1]⟩ (by decide) (by decide)

/-- C2, history bound: in any reachable state, each room's history buffer
equals the last-100 suffix of the messages accepted for it, in acceptance
order; it never exceeds 100 entries, and once more than 100 posts have been
accepted it holds exactly the last 100 of them. -/
theorem history_bound (tr : List Intent) (r : RoomId) (room : Room)
    (h : (execTrace tr).rooms r = some room) :
    room.messages = lastN 100 (acceptedAlong init tr r)
    ∧ room.messages.length ≤ 100
    ∧ ((acceptedAlong init tr r).length > 100 →
        room.messages =
          (acceptedAlong init tr r).drop ((acceptedAlong init tr r).length - 100)
        ∧ room.messages.length = 100) := by
  have h1 := execTrace_Mof tr r
  rw [Mof_some h] at h1
  refine ⟨h1, ?_, ?_⟩
  · rw [h1, lastN_length]
    exact Nat.min_le_left _ _
  · intro hlen
    refine ⟨h1, ?_⟩
    rw [h1, lastN_length]
    omega

/-- C2 witness. -/
theorem history_bound_witness :
    ((⟨"general", [], []⟩ : Room).messages.length ≤ 100)
    ∧ (⟨"general", [], []⟩ : Room).messages
        = lastN 100 (acceptedAlong init [.createRoom "r" "general"] "r") :=
  ⟨(history_bound [.createRoom "r" "general"] "r" ⟨"general", [], []⟩
      (by decide)).2.1,
   (history_bound [.createRoom "r" "general"] "r" ⟨"general", [], []⟩
      (by decide)).1⟩

/-- C5 counterexample: the claim says a whitespace-only body fails with an
empty-message error, nothing is appended and nothing broadcast.  In the
code there is no such check: connection 1, alone in room "r", sends three
spaces; the handler emits a `message` broadcast (no error), and the trimmed
empty body is appended to the room's history. -/
theorem empty_message_claim_cex :
    (step (execTrace [.createRoom "r" "g", .connect 1, .join 1 "r"])
        (.send 1 "r" "   ")).2
      = [Event.message 1 ⟨0, 1, "", 0⟩]
    ∧ (step (execTrace [.createRoom "r" "g", .connect 1, .join 1 "r"])
        (.send 1 "r" "   ")).1.rooms "r"
      = some ⟨"g", [⟨0, 1, "", 0⟩], [1]⟩ := by
  exact ⟨by decide, by decide⟩

/-- C5 amended: the server accepts empty and whitespace-only messages.  A
send whose body trims to the empty string passes the handler's checks like
any other: the empty-bodied stamped message is appended to the room's
history and broadcast to every transport member, and no `error` event is
emitted. -/
theorem whitespace_message_accepted (s : ServerState) (c : ConnId)
    (r : RoomId) (room : Room) (m : String) (hc : c ∈ s.conns)
    (hr : s.rooms r = some room) (hm : c ∈ room.users)
    (hw : jsTrim m = "") :
    (stampMsg s c m).message = ""
    ∧ (step s (.send c r m)).1.rooms r =
        some { room with messages := pushBounded room.messages (stampMsg s c m) }
    ∧ (step s (.send c r m)).2 =
        (roomMembersT s r).map (fun d => Event.message d (stampMsg s c m))
    ∧ (∀ d det, Event.errorEvt d det ∉ (step s (.send c r m)).2) := by
  obtain ⟨h1, -, -, -, -⟩ := send_accept_state (m := m) hc hr hm
  have hevts := send_accept_evts (m := m) hc hr hm
  refine ⟨by rw [show (stampMsg s c m).message = jsTrim m from rfl, hw], h1,
    hevts, ?_⟩
  intro d det hmem
  rw [hevts, List.mem_map] at hmem
  obtain ⟨d', -, hd'⟩ := hmem
  exact Event.noConfusion hd'

/-- C5 amended witness. -/
theorem whitespace_message_accepted_witness :
    (stampMsg (execTrace [.createRoom "r" "g", .connect 1, .join 1 "r"])
      1 "   ").message = "" :=
  (whitespace_message_accepted
    (execTrace [.createRoom "r" "g", .connect 1, .join 1 "r"])
    1 "r" ⟨"g", [], [1]⟩ "   " (by decide) (by decide) (by decide)
    (by decide)).1

/-- C1, evaluated at the failing input: socket.io removes the socket from
its rooms before the `disconnect` event fires, so the handler's removal
loop (lines 253-264) is dead code.  After connection 2 — in room "r"
alongside connection 1 — disconnects, it is deregistered (gone from the
connection table, transport room set empty) yet still listed in the room's
`users` set: membership is not "none after a disconnect" as the claim
requires, but a ghost entry that persists. -/
theorem disconnect_ghost_membership :
    2 ∉ (step (execTrace [.createRoom "r" "g", .connect 1, .connect 2,
        .join 1 "r", .join 2 "r"]) (.disconnect 2)).1.conns
    ∧ (step (execTrace [.createRoom "r" "g", .connect 1, .connect 2,
        .join 1 "r", .join 2 "r"]) (.disconnect 2)).1.sockRooms 2 = []
    ∧ (step (execTrace [.createRoom "r" "g", .connect 1, .connect 2,
        .join 1 "r", .join 2 "r"]) (.disconnect 2)).1.rooms "r"
      = some ⟨"g", [], [1, 2]⟩ := by
  exact ⟨by decide, by decide, by decide⟩

/-- C4 counterexample: the claim says re-joining the current room produces
no `left` (and no duplicate `joined`) broadcast to the other members.  In
the code the join handler first leaves every previous room: when connection
2, already in room "r" alongside connection 1, processes `join "r"` again,
connection 1 receives a `user_left` broadcast (followed by a fresh
`user_joined`). -/
theorem rejoin_claim_cex :
    Event.userLeft 1 "r" 2 [1] ∈
      (step (execTrace [.createRoom "r" "g", .connect 1, .connect 2,
        .join 1 "r", .join 2 "r"]) (.join 2 "r")).2
    ∧ Event.userJoined 1 "r" 2 [1, 2] ∈
      (step (execTrace [.createRoom "r" "g", .connect 1, .connect 2,
        .join 1 "r", .join 2 "r"]) (.join 2 "r")).2 := by
  exact ⟨by decide, by decide⟩

/-- C4 amended: re-joining the current room leaves the room's membership
set unchanged as a set (the re-joiner is deleted and re-appended, moving to
the end of the insertion order), and the join response — member snapshot
and history replay — is still delivered to the joining connection; but the
operation is not broadcast-silent: every other connected member receives a
`user_left` broadcast for the re-joiner and, strictly after it in the
emitted batch, a fresh `user_joined` broadcast (the batch splits as
`E1 ++ E2` with the `user_left` in `E1` and the `user_joined` only in
`E2`). -/
theorem rejoin_effects (tr : List Intent) (c : ConnId) (r : RoomId)
    (room : Room) (hc : c ∈ (execTrace tr).conns)
    (hr : (execTrace tr).rooms r = some room) (hm : c ∈ room.users) :
    (∀ x, x ∈ setAdd (room.users.erase c) c ↔ x ∈ room.users)
    ∧ (step (execTrace tr) (.join c r)).1.rooms r =
        some { room with users := setAdd (room.users.erase c) c }
    ∧ Event.roomUsers c r (setAdd (room.users.erase c) c)
        ∈ (step (execTrace tr) (.join c r)).2
    ∧ Event.messageHistory c r room.messages
        ∈ (step (execTrace tr) (.join c r)).2
    ∧ (∀ d, d ∈ room.users → d ∈ (execTrace tr).conns → d ≠ c →
        ∃ E1 E2, (step (execTrace tr) (.join c r)).2 = E1 ++ E2
          ∧ Event.userLeft d r c (room.users.erase c) ∈ E1
          ∧ Event.userJoined d r c (setAdd (room.users.erase c) c) ∈ E2
          ∧ Event.userJoined d r c (setAdd (room.users.erase c) c) ∉ E1) := by
  have hInv := Inv_execTrace tr
  have hnd := hInv.usersNodup r room hr
  have hstep : step (execTrace tr) (.join c r) = joinRoom (execTrace tr) c r := by
    simp [step, hc]
  obtain ⟨hco, -, -, hsc, hso, hroom, -, hevts⟩ := joinRoom_spec (c := c) hInv hc hr
  have hrc : r ∈ (execTrace tr).sockRooms c := (hInv.syncLive r room c hr hc).mp hm
  have hsock : (execTrace tr).sockRooms c = [r] := by
    rcases length_le_one_cases (hInv.sockLen c) with h0 | ⟨r0, h0⟩
    · rw [h0] at hrc
      simp at hrc
    · rw [h0] at hrc
      simp at hrc
      rw [h0, hrc]
  have hleave : (leaveAll (execTrace tr) c).2 =
      socketTo (setRoom (setSockRooms (execTrace tr) c
          (((execTrace tr).sockRooms c).erase r)) r
          { room with users := room.users.erase c }) c r
        (fun d => Event.userLeft d r c (room.users.erase c)) := by
    rw [leaveAll_single hsock, leaveOne_some hr]
    simp
  refine ⟨?_, ?_, ?_, ?_, ?_⟩
  · intro x
    rw [mem_setAdd]
    constructor
    · rintro (rfl | hx)
      · exact hm
      · exact ((List.Nodup.mem_erase_iff hnd).mp hx).2
    · intro hx
      by_cases hxc : x = c
      · exact Or.inl hxc
      · exact Or.inr ((List.Nodup.mem_erase_iff hnd).mpr ⟨hxc, hx⟩)
  · rw [hstep]
    exact hroom
  · rw [hstep, hevts]
    simp
  · rw [hstep, hevts]
    simp
  · intro d hd hdconn hdc
    have hdr : r ∈ (execTrace tr).sockRooms d :=
      (hInv.syncLive r room d hr hdconn).mp hd
    refine ⟨(leaveAll (execTrace tr) c).2,
      socketTo (joinRoom (execTrace tr) c r).1 c r
          (fun d' => Event.userJoined d' r c (setAdd (room.users.erase c) c))
        ++ [Event.roomUsers c r (setAdd (room.users.erase c) c),
            Event.messageHistory c r room.messages], ?_, ?_, ?_, ?_⟩
    · rw [hstep, hevts, List.append_assoc]
    · rw [hleave]
      apply mem_socketTo.mpr
      refine ⟨d, ⟨by simpa using hdconn, ?_⟩, hdc, rfl⟩
      simp [hdc, hdr]
    · refine List.mem_append_left _ ?_
      apply mem_socketTo.mpr
      refine ⟨d, ⟨?_, ?_⟩, hdc, rfl⟩
      · rw [hco]
        exact hdconn
      · rw [hso d hdc]
        exact hdr
    · rw [hleave]
      intro hmem
      obtain ⟨d', -, -, he⟩ := mem_socketTo.mp hmem
      exact Event.noConfusion he

/-- C4 amended witness. -/
theorem rejoin_effects_witness :
    Event.roomUsers 2 "r" (setAdd ((([1, 2] : List ConnId).erase 2)) 2)
      ∈ (step (execTrace [.createRoom "r" "g", .connect 1, .connect 2,
          .join 1 "r", .join 2 "r"]) (.join 2 "r")).2 :=
  (rejoin_effects [.createRoom "r" "g", .connect 1, .connect 2,
      .join 1 "r", .join 2 "r"] 2 "r" ⟨"g", [], [1, 2]⟩
    (by decide) (by decide) (by decide)).2.2.1

/-- C6 counterexample: the claim says the join snapshot answers "who else
is here" and that the first connection into an empty room receives an empty
snapshot.  In the code the snapshot is taken after `room.users.add`, so the
first joiner of the fresh room "r" receives `room_users` listing itself,
and no empty-snapshot event exists in the emitted batch. -/
theorem join_snapshot_claim_cex :
    Event.roomUsers 1 "r" [1]
      ∈ (step (execTrace [.createRoom "r" "g", .connect 1]) (.join 1 "r")).2
    ∧ Event.roomUsers 1 "r" []
      ∉ (step (execTrace [.createRoom "r" "g", .connect 1]) (.join 1 "r")).2 := by
  exact ⟨by decide, by decide⟩

/-- C6 amended: the member snapshot delivered to a joining connection is
taken after the join and therefore always contains the joiner itself; the
other entries are exactly the other members present at join time, and the
first connection into an empty room receives the singleton snapshot of
itself rather than an empty one. -/
theorem join_snapshot_includes_joiner (tr : List Intent) (c : ConnId)
    (r : RoomId) (room : Room) (hc : c ∈ (execTrace tr).conns)
    (hr : (execTrace tr).rooms r = some room) :
    Event.roomUsers c r (setAdd (room.users.erase c) c)
      ∈ (step (execTrace tr) (.join c r)).2
    ∧ c ∈ setAdd (room.users.erase c) c
    ∧ (∀ x, x ∈ setAdd (room.users.erase c) c ↔
        (x ∈ room.users ∧ x ≠ c) ∨ x = c)
    ∧ (room.users = [] → setAdd (room.users.erase c) c = [c]) := by
  have hInv := Inv_execTrace tr
  have hnd := hInv.usersNodup r room hr
  obtain ⟨-, -, -, -, -, -, -, hevts⟩ := joinRoom_spec (c := c) hInv hc hr
  have hstep : step (execTrace tr) (.join c r) = joinRoom (execTrace tr) c r := by
    simp [step, hc]
  refine ⟨?_, ?_, ?_, ?_⟩
  · rw [hstep, hevts]
    simp
  · exact mem_setAdd.mpr (Or.inl rfl)
  · intro x
    rw [mem_setAdd]
    constructor
    · rintro (rfl | hx)
      · exact Or.inr rfl
      · have h2 := (List.Nodup.mem_erase_iff hnd).mp hx
        exact Or.inl ⟨h2.2, h2.1⟩
    · rintro (⟨hx, hxc⟩ | rfl)
      · exact Or.inr ((List.Nodup.mem_erase_iff hnd).mpr ⟨hxc, hx⟩)
      · exact Or.inl rfl
  · intro h0
    rw [h0]
    rfl

/-- C6 amended witness. -/
theorem join_snapshot_includes_joiner_witness :
    Event.roomUsers 1 "r" (setAdd ((([] : List ConnId).erase 1)) 1)
      ∈ (step (execTrace [.createRoom "r" "g", .connect 1]) (.join 1 "r")).2
    ∧ setAdd ((([] : List ConnId).erase 1)) 1 = [1] :=
  ⟨(join_snapshot_includes_joiner [.createRoom "r" "g", .connect 1] 1 "r"
      ⟨"g", [], []⟩ (by decide) (by decide)).1,
   (join_snapshot_includes_joiner [.createRoom "r" "g", .connect 1] 1 "r"
      ⟨"g", [], []⟩ (by decide) (by decide)).2.2.2 rfl⟩

/-- C3, evaluated at the failing input: after connections 1 and 2 joined
room "r" and connection 2 disconnected, the broken disconnect cleanup has
left 2 in the room's `users` set — the room's membership record at the
instant 1's post is accepted still lists both.  The broadcast
`io.to(roomId)` reaches only the live transport members, so the stamped
message is delivered to 1 alone and never to 2: the set of receiving
connections is a strict subset of the membership set. -/
theorem broadcast_misses_ghost_member :
    (execTrace [.createRoom "r" "g", .connect 1, .connect 2, .join 1 "r",
        .join 2 "r", .disconnect 2]).rooms "r" = some ⟨"g", [], [1, 2]⟩
    ∧ (step (execTrace [.createRoom "r" "g", .connect 1, .connect 2,
        .join 1 "r", .join 2 "r", .disconnect 2]) (.send 1 "r" "hi")).2
      = [Event.message 1 ⟨0, 1, "hi", 0⟩]
    ∧ Event.message 2 ⟨0, 1, "hi", 0⟩
      ∉ (step (execTrace [.createRoom "r" "g", .connect 1, .connect 2,
          .join 1 "r", .join 2 "r", .disconnect 2]) (.send 1 "r" "hi")).2 := by
  exact ⟨by decide, by decide, by decide⟩

/-- C7, evaluated at the failing input: the spec (and the handler's own
loop body) intend disconnect to perform the same membership removal and
`user_left` broadcast as an explicit leave, then release resources.  In
the running server `socket.rooms` is already empty when `disconnect` fires,
so the loop never executes: disconnecting connection 2 from room "r"
(shared with connection 1) emits nothing and removes nothing, where the
spec's leave removes 2 from the room and broadcasts `user_left` to 1.
Only the resource release (deregistration) happens. -/
theorem disconnect_no_cleanup :
    (step (execTrace [.createRoom "r" "g", .connect 1, .connect 2,
        .join 1 "r", .join 2 "r"]) (.disconnect 2)).2 = []
    ∧ (step (execTrace [.createRoom "r" "g", .connect 1, .connect 2,
        .join 1 "r", .join 2 "r"]) (.disconnect 2)).1.rooms "r"
      = some ⟨"g", [], [1, 2]⟩
    ∧ (step (execTrace [.createRoom "r" "g", .connect 1, .connect 2,
        .join 1 "r", .join 2 "r"]) (.leave 2)).2
      = [Event.userLeft 1 "r" 2 [1]]
    ∧ (step (execTrace [.createRoom "r" "g", .connect 1, .connect 2,
        .join 1 "r", .join 2 "r"]) (.leave 2)).1.rooms "r"
      = some ⟨"g", [], [1]⟩
    ∧ 2 ∉ (step (execTrace [.createRoom "r" "g", .connect 1, .connect 2,
        .join 1 "r", .join 2 "r"]) (.disconnect 2)).1.conns := by
  exact ⟨by decide, by decide, by decide, by decide, by decide⟩


end Chat
